import Mathlib

/-!
Verification development for the corivai review pipeline.

The Python sources are shallowly embedded: a Python string is a Lean
List Char, a list of diff lines is a List (List Char), dict-shaped
records become Lean structures, and network collaborators (the GitHub
client, the review backend, the file-content fetch) are parameters of
the functions that call them.  Machine behaviour that the code relies
on (str.strip, str.split, str.startswith, the two regular expressions
of pr_reviewer.py and review.py, Python int arithmetic) is modelled by
the executable definitions below; positions and line counters are Int
because the source computes start - 1 on Python ints.
-/

namespace Corivai

/-- Model of Python str.strip's character class for the strings this
pipeline handles: space, tab, carriage return, newline. -/
def pyws (c : Char) : Bool := c.isWhitespace

/-- Model of Python str.lstrip(). -/
def lstrip (s : List Char) : List Char := s.dropWhile pyws

/-- Model of Python str.rstrip(). -/
def rstrip (s : List Char) : List Char := (s.reverse.dropWhile pyws).reverse

/-- Model of Python str.strip(). -/
def strip (s : List Char) : List Char := rstrip (lstrip s)

/-- Model of Python str.startswith(pat): pat is the first argument. -/
def startsWith : List Char → List Char → Bool
  | [], _ => true
  | _ :: _, [] => false
  | p :: ps, c :: cs => p == c && startsWith ps cs

/-- Model of Python s.split(chr 10): splitting on the newline character,
with the Python conventions that the empty string yields one empty
field and a trailing newline yields a trailing empty field. -/
def splitLines : List Char → List (List Char)
  | [] => [[]]
  | c :: rest =>
    if c = '\n' then [] :: splitLines rest
    else
      match splitLines rest with
      | [] => [[c]]
      | l :: ls => (c :: l) :: ls

/-- Model of Python (chr 10).join(lines). -/
def joinNL : List (List Char) → List Char
  | [] => []
  | [l] => l
  | l :: ls => l ++ '\n' :: joinNL ls

/-- Indentation width of a line: len(content) - len(content.lstrip()),
as computed (and then never read) by extract_code_block. -/
def lineIndent (content : List Char) : Nat := content.length - (lstrip content).length

/-- Value of Python int() on a nonempty string of decimal digits. -/
def digitsToNat (ds : List Char) : Nat :=
  ds.foldl (fun n c => n * 10 + (c.toNat - '0'.toNat)) 0

/-- Consume a literal pattern at the head of the input, as the fixed
parts of the source regular expressions do. -/
def expectLit (pat s : List Char) : Option (List Char) :=
  if startsWith pat s then some (s.drop pat.length) else none

/-- Optional group comma-digits of the hunk-header regular expression:
it consumes a comma followed by at least one digit, or nothing. -/
def optCommaDigits (s : List Char) : List Char :=
  match s with
  | ',' :: t => if t.takeWhile Char.isDigit = [] then s else t.dropWhile Char.isDigit
  | _ => s

/-- Capture group 1 of the pr_reviewer.py hunk-header pattern
matching at-at space minus digits optional-comma-digits space plus
captured-digits optional-comma-digits space at-at, anchored at the
start of the line, trailing text allowed.  Returns int(group(1)). -/
def parseHunkHeader (line : List Char) : Option Nat :=
  match expectLit ("@@ -".toList) line with
  | none => none
  | some s1 =>
    if s1.takeWhile Char.isDigit = [] then none
    else
      let s2 := optCommaDigits (s1.dropWhile Char.isDigit)
      match expectLit (" +".toList) s2 with
      | none => none
      | some s3 =>
        let d2 := s3.takeWhile Char.isDigit
        if d2 = [] then none
        else
          let s4 := optCommaDigits (s3.dropWhile Char.isDigit)
          match expectLit (" @@".toList) s4 with
          | none => none
          | some _ => some (digitsToNat d2)

/-- Search step of the lazy group in the file-header pattern: find the
earliest split point where the literal space-b-slash occurs with at
least one character after it, and return what follows. -/
def findBsplit : List Char → Option (List Char)
  | [] => none
  | l@(_ :: rest) =>
    if startsWith (" b/".toList) l && !(l.drop 3).isEmpty then some (l.drop 3)
    else findBsplit rest

/-- Capture group 2 of the pr_reviewer.py file-header pattern
diff space minus-minus-git space a-slash lazy-group space b-slash group,
anchored at the start of the line.  The lazy first group consumes at
least one character, so the split search starts after one character. -/
def parseGitHeader (line : List Char) : Option (List Char) :=
  match expectLit ("diff --git a/".toList) line with
  | none => none
  | some rest =>
    match rest with
    | [] => none
    | _ :: tail => findBsplit tail

/-- Transient change block emitted by extract_code_block: the dict with
keys file_path, changes, start_line.  current_file may still be unset
(None) when the diff has no recognised file header. -/
structure Block where
  file_path : Option (List Char)
  changes : List Char
  start_line : Nat
deriving DecidableEq, Repr

/-- Entry of the structured diff built by create_structured_diff: the
dict with keys file_path, changes, line, comment (comment is always
the empty string). -/
structure DiffItem where
  file_path : Option (List Char)
  changes : List Char
  line : Int
  comment : List Char
deriving DecidableEq, Repr

/-- ReviewComment dataclass of src.models. -/
structure ReviewComment where
  comment : List Char
  file_path : List Char
  line_string : List Char
deriving DecidableEq, Repr

/-- ReviewResponse dataclass of src.models. -/
structure ReviewResponse where
  comments : List ReviewComment
deriving DecidableEq, Repr

/-- GitHub review-comment payload built by apply_review_comments: the
dict with keys path, position, body. -/
structure GHComment where
  path : List Char
  position : Int
  body : List Char
deriving DecidableEq, Repr

/-- Observable side effects of post_comments on the Git host. -/
inductive HostAction where
  | createReview (comments : List GHComment)
  | issueComment (body : List Char)
deriving DecidableEq, Repr

/-- PRReviewer._normalize_code: join the stripped non-blank lines with
single newlines. -/
def normalize_code (code : List Char) : List Char :=
  joinNL (((splitLines code).filter (fun line => !(strip line).isEmpty)).map strip)

/-- Closing of the currently open block in extract_code_block: the
accumulated added-line contents are joined and appended to the emitted
blocks when the joined text is not whitespace-only.  This code appears
three times in the source (context line, other line, end of scan). -/
def closeBlock (f : Option (List Char)) (cur : Option (Nat × List (List Char)))
    (blocks : List Block) : List Block :=
  match cur with
  | none => blocks
  | some (st, blk) =>
    let text := joinNL blk
    if (strip text).isEmpty then blocks else blocks ++ [⟨f, text, st⟩]

/-- Scan loop of PRReviewer.extract_code_block over the remaining lines,
with i the absolute index of the head of rest in the full line list.
State: code_lines accumulator, emitted blocks, the open block as an
optional pair of its start index and accumulated contents (in the
source the invariantly-coupled pair current_block / block_start_line),
and the write-only current_indent tracker. -/
def extractLoop (f : Option (List Char)) :
    List (List Char) → Nat → List (List Char) → List Block →
    Option (Nat × List (List Char)) → Option Nat →
    List Char × Nat × List Block
  | [], i, codeLines, blocks, cur, _ =>
    (joinNL codeLines, i, closeBlock f cur blocks)
  | line :: rest, i, codeLines, blocks, cur, curIndent =>
    if startsWith ("diff --git".toList) line || startsWith ("@@".toList) line then
      (joinNL codeLines, i, closeBlock f cur blocks)
    else if startsWith ['+'] line then
      let content := line.drop 1
      let curIndent' :=
        if curIndent.isNone && !(strip content).isEmpty then some (lineIndent content)
        else curIndent
      let cur' :=
        if !(strip content).isEmpty then
          match cur with
          | none => some (i, [content])
          | some (st, blk) => some (st, blk ++ [content])
        else
          match cur with
          | none => none
          | some (st, blk) => some (st, blk ++ [content])
      extractLoop f rest (i + 1) (codeLines ++ [line]) blocks cur' curIndent'
    else if startsWith [' '] line then
      match cur with
      | none => extractLoop f rest (i + 1) (codeLines ++ [line]) blocks cur curIndent
      | some _ =>
        extractLoop f rest (i + 1) (codeLines ++ [line]) (closeBlock f cur blocks) none none
    else
      match cur with
      | none => extractLoop f rest (i + 1) (codeLines ++ [line]) blocks cur curIndent
      | some _ =>
        extractLoop f rest (i + 1) (codeLines ++ [line]) (closeBlock f cur blocks) none none

/-- PRReviewer.extract_code_block(lines, start_idx, current_file). -/
def extract_code_block (lines : List (List Char)) (start_idx : Nat)
    (current_file : Option (List Char)) : List Char × Nat × List Block :=
  extractLoop current_file (lines.drop start_idx) start_idx [] [] none none

/-- The extraction loop never moves its index backwards. -/
theorem extractLoop_idx_ge (rest : List (List Char)) :
    ∀ (f : Option (List Char)) (i : Nat) (cl : List (List Char)) (bl : List Block)
      (cur : Option (Nat × List (List Char))) (ci : Option Nat),
      i ≤ (extractLoop f rest i cl bl cur ci).2.1 := by
  induction rest with
  | nil => intro f i cl bl cur ci; simp [extractLoop]
  | cons line rest ih =>
    intro f i cl bl cur ci
    simp only [extractLoop]
    repeat' split
    case _ => simp
    all_goals exact le_trans (Nat.le_succ i) (ih _ _ _ _ _ _)

/-- The extraction loop consumes at most the remaining lines. -/
theorem extractLoop_idx_le (rest : List (List Char)) :
    ∀ (f : Option (List Char)) (i : Nat) (cl : List (List Char)) (bl : List Block)
      (cur : Option (Nat × List (List Char))) (ci : Option Nat),
      (extractLoop f rest i cl bl cur ci).2.1 ≤ i + rest.length := by
  induction rest with
  | nil => intro f i cl bl cur ci; simp [extractLoop]
  | cons line rest ih =>
    intro f i cl bl cur ci
    simp only [extractLoop]
    have harith : i + 1 + rest.length = i + (line :: rest).length := by
      simp [Nat.add_comm, Nat.add_assoc, Nat.add_left_comm]
    repeat' split
    case _ => simp
    all_goals exact harith ▸ ih _ _ _ _ _ _

/-- A line that is not a file header and not a hunk header is always
consumed: the extraction loop returns an index strictly beyond it. -/
theorem extractLoop_cons_idx_gt (line : List Char) (rest : List (List Char))
    (f : Option (List Char)) (i : Nat) (cl : List (List Char)) (bl : List Block)
    (cur : Option (Nat × List (List Char))) (ci : Option Nat)
    (h1 : startsWith ("diff --git".toList) line = false)
    (h2 : startsWith ("@@".toList) line = false) :
    i + 1 ≤ (extractLoop f (line :: rest) i cl bl cur ci).2.1 := by
  simp only [extractLoop, h1, h2]
  rw [if_neg (by simp)]
  repeat' split
  all_goals exact extractLoop_idx_ge ..

/-- A line starting with a plus or a space starts with neither of the
two header markers. -/
theorem not_header_of_plus_or_space (line : List Char)
    (h : (startsWith ['+'] line || startsWith [' '] line) = true) :
    startsWith ("diff --git".toList) line = false ∧
    startsWith ("@@".toList) line = false := by
  match line with
  | [] => simp [startsWith] at h
  | c :: t =>
    simp only [startsWith, Bool.and_eq_true, beq_iff_eq, Bool.or_eq_true] at h
    rcases h with ⟨h, -⟩ | ⟨h, -⟩ <;> subst h <;> exact ⟨rfl, rfl⟩

/-- Scan loop of PRReviewer.create_structured_diff over the remaining
lines, with i the absolute index of the head of rest.  On a file header
the file name is taken from the header when the pattern matches; on a
hunk header the line counter is set to the captured new-file start
minus one; on an addition or context line the block extractor is run
from the current index, every returned block is emitted at position
counter plus block-start offset plus one, and the counter advances by
the number of consumed lines. -/
def csdLoop (rest : List (List Char)) (i : Nat) (currentFile : Option (List Char))
    (currentLine : Int) (acc : List DiffItem) : List DiffItem :=
  match rest with
  | [] => acc
  | line :: rest' =>
    if startsWith ("diff --git".toList) line then
      let cf := match parseGitHeader line with
        | some f => some f
        | none => currentFile
      csdLoop rest' (i + 1) cf currentLine acc
    else if startsWith ("index ".toList) line || startsWith ("--- ".toList) line ||
        startsWith ("+++ ".toList) line then
      csdLoop rest' (i + 1) currentFile currentLine acc
    else if startsWith ("@@".toList) line then
      let cl := match parseHunkHeader line with
        | some n => (n : Int) - 1
        | none => currentLine
      csdLoop rest' (i + 1) currentFile cl acc
    else if h : (startsWith ['+'] line || startsWith [' '] line) = true then
      let r := extractLoop currentFile (line :: rest') i [] [] none none
      let newIdx := r.2.1
      let items := r.2.2.filterMap (fun b =>
        if (strip b.changes).isEmpty then none
        else some (⟨b.file_path, b.changes,
          currentLine + ((b.start_line : Int) - (i : Int)) + 1, []⟩ : DiffItem))
      csdLoop ((line :: rest').drop (newIdx - i)) newIdx currentFile
        (currentLine + ((newIdx : Int) - (i : Int))) (acc ++ items)
    else
      csdLoop rest' (i + 1) currentFile currentLine acc
termination_by rest.length
decreasing_by
  · simp
  · simp
  · simp
  · have hk := extractLoop_cons_idx_gt l ls currentFile i [] [] none none
      (not_header_of_plus_or_space l h).1 (not_header_of_plus_or_space l h).2
    have hlen : ((l :: ls).drop
        ((extractLoop currentFile (l :: ls) i [] [] none none).2.1 - i)).length
        = (l :: ls).length -
          ((extractLoop currentFile (l :: ls) i [] [] none none).2.1 - i) :=
      List.length_drop ..
    simp only [hlen, List.length_cons]
    omega
  · simp

/-- PRReviewer.create_structured_diff(diff_content), returning the list
stored under the single key diff of the produced dict. -/
def create_structured_diff (diff_content : List Char) : List DiffItem :=
  csdLoop (splitLines diff_content) 0 none 0 []

/-- PRReviewer.chunk_diff_data: for i in range(0, len(items), size)
yield items sliced from i to i plus size.  The source fixes size to the
chunk_size field, which __init__ sets to 5; it is a parameter here and
the model is used only for size at least one (Python range raises on
step zero). -/
def chunk_diff_data (chunk_size : Nat) (items : List DiffItem) : List (List DiffItem) :=
  (List.range ((items.length + chunk_size - 1) / chunk_size)).map
    (fun k => (items.drop (k * chunk_size)).take chunk_size)

/-- Loop body of PRReviewer.process_chunks: each chunk is passed to the
review generator; its response is appended, and any generator failure
propagates (the source logs and re-raises).  The generator collaborator
is a parameter taking the chunk that the source serialises to JSON. -/
def process_chunksGo (gen : List DiffItem → Except (List Char) ReviewResponse) :
    List (List DiffItem) → Except (List Char) (List ReviewResponse)
  | [] => .ok []
  | c :: rest =>
    match gen c with
    | .ok r =>
      match process_chunksGo gen rest with
      | .ok rs => .ok (r :: rs)
      | .error e => .error e
    | .error e => .error e

/-- PRReviewer.process_chunks over the chunks of the structured diff. -/
def process_chunks (gen : List DiffItem → Except (List Char) ReviewResponse)
    (chunk_size : Nat) (structured_diff : List DiffItem) :
    Except (List Char) (List ReviewResponse) :=
  process_chunksGo gen (chunk_diff_data chunk_size structured_diff)

/-- PRReviewer.merge_review_responses. -/
def merge_review_responses (responses : List ReviewResponse) : ReviewResponse :=
  ⟨(responses.map (fun r => r.comments)).flatten⟩

/-- PRReviewer.apply_review_comments: for each returned comment, find
the first structured-diff entry with the same file path and
normalised-equal changes text and emit one GitHub comment for it; a
comment with no matching entry contributes nothing. -/
def apply_review_comments (review_response : ReviewResponse)
    (structured_diff : List DiffItem) : List GHComment :=
  review_response.comments.foldl (fun acc c =>
    match structured_diff.find? (fun e =>
        e.file_path == some c.file_path &&
        normalize_code e.changes == normalize_code c.line_string) with
    | some e => acc ++ [⟨c.file_path, e.line, "**Finding**: ".toList ++ c.comment⟩]
    | none => acc) []

/-- Match predicate of apply_review_comments, in propositional form. -/
def matchesF (c : ReviewComment) (e : DiffItem) : Prop :=
  e.file_path = some c.file_path ∧
  normalize_code e.changes = normalize_code c.line_string

/-- PRReviewer.post_comments as the list of host calls it performs: with
no comments it returns after logging, otherwise it creates one batched
review and one issue comment recording the processed head SHA. -/
def post_comments (comments : List GHComment) (current_head_sha : List Char) :
    List HostAction :=
  if comments.isEmpty then []
  else
    [.createReview comments,
     .issueComment ("@corivai-review Last Processed SHA: ".toList ++ current_head_sha)]

namespace Review

/-- Hunk record built by review.py post_comment while scanning the raw
diff: the dict with keys start_line and lines. -/
structure Hunk where
  start_line : Nat
  lines : List (List Char)
deriving DecidableEq, Repr

/-- Comment dict consumed by review.py post_comment, with keys
file_path, line_string, comment. -/
structure RComment where
  file_path : List Char
  line_string : List Char
  comment : List Char
deriving DecidableEq, Repr

/-- Review-comment payload entry built by review.py post_comment. -/
structure Payload where
  path : List Char
  position : Nat
  body : List Char
deriving DecidableEq, Repr

/-- Line-number search of review.py post_comment: the head-commit file
content is fetched through the collaborator (none models a non-200
response), and the first 1-based index whose stripped line equals the
stripped line_string is returned. -/
def find_line_number (fetch : List Char → Option (List (List Char)))
    (file_path line_string : List Char) : Option Nat :=
  match fetch file_path with
  | none => none
  | some file_text =>
    match file_text.findIdx? (fun l => strip l == strip line_string) with
    | some idx => some (idx + 1)
    | none => none

/-- Inner scan of one hunk: the first added line whose stripped text
equals the stripped line_string gives start_line plus its offset. -/
def hunkMatchPos (h : Hunk) (line_string : List Char) : Option Nat :=
  match h.lines.findIdx? (fun added => strip added == strip line_string) with
  | some idx => some (h.start_line + idx)
  | none => none

/-- Python truthiness of the optional position: None and zero are
falsy, so the outer hunk loop keeps scanning past them. -/
def optTruthy : Option Nat → Bool
  | none => false
  | some p => p != 0

/-- Outer hunk loop of the position search: a hunk match overwrites the
running value, and the loop stops early only when that value is truthy. -/
def findPosGo (line_string : List Char) : List Hunk → Option Nat → Option Nat
  | [], acc => acc
  | h :: rest, acc =>
    let acc' := match hunkMatchPos h line_string with
      | some p => some p
      | none => acc
    if optTruthy acc' then acc' else findPosGo line_string rest acc'

/-- Position search of review.py post_comment over the hunks recorded
for one file. -/
def find_position_in_diff (hunks : List Hunk) (line_string : List Char) : Option Nat :=
  findPosGo line_string hunks none

/-- Body text built by review.py post_comment for one payload entry. -/
def mkBody (issue : List Char) (line_number : Nat) : List Char :=
  "**Finding**: ".toList ++ issue ++ "\n(Line: ".toList ++
    Nat.toDigits 10 line_number ++ ")".toList

/-- Per-comment step of the review.py post_comment loop: skip when the
file fetch fails, when the line number is not found, when no diff
position is found, or when the pair of path and position is already in
the existing-comment set; otherwise produce one payload entry. -/
def processComment (fetch : List Char → Option (List (List Char)))
    (file_hunks : List (List Char × List Hunk))
    (existing : List (List Char × Nat)) (c : RComment) : Option Payload :=
  match find_line_number fetch c.file_path c.line_string with
  | none => none
  | some line_number =>
    let pos := match file_hunks.lookup c.file_path with
      | some hs => find_position_in_diff hs c.line_string
      | none => none
    match pos with
    | none => none
    | some p =>
      if existing.contains (c.file_path, p) then none
      else some ⟨c.file_path, p, mkBody c.comment line_number⟩

/-- Payload accumulation of review.py post_comment over all comments.
In the source the file_hunks table is not a parameter: post_comment
builds it itself from the raw diff, see build_file_hunks below. -/
def post_comment_payload (fetch : List Char → Option (List (List Char)))
    (file_hunks : List (List Char × List Hunk))
    (existing : List (List Char × Nat)) (comments : List RComment) : List Payload :=
  comments.filterMap (processComment fetch file_hunks existing)

/-- Model of Python str.rstrip(chr 10): strip only trailing newlines,
as the dead recording branch of post_comment does on added lines. -/
def rstripNL (s : List Char) : List Char :=
  (s.reverse.dropWhile (fun c => c == '\n')).reverse

/-- Python dict assignment file_hunks[k] = v on the assoc-list model:
replace the value in place when the key exists, else insert at the
end; only lookup is observed downstream, so entry order is inert. -/
def dictSet (k : List Char) (v : List Hunk) :
    List (List Char × List Hunk) → List (List Char × List Hunk)
  | [] => [(k, v)]
  | (k', v') :: rest =>
    if k' == k then (k, v) :: rest else (k', v') :: dictSet k v rest

/-- Python file_hunks[k].append(h): append one hunk record to the entry
of key k.  The source only reaches this with k present in the dict (the
file header inserted it); on a hunk header before any file header the
source raises a KeyError instead, which aborts post_comment, and the
model leaves the table unchanged in that unreached case. -/
def dictAppendHunk (k : List Char) (h : Hunk) :
    List (List Char × List Hunk) → List (List Char × List Hunk)
  | [] => []
  | (k', v') :: rest =>
    if k' == k then (k', v' ++ [h]) :: rest else (k', v') :: dictAppendHunk k h rest

/-- Python file_hunks[k][-1]['lines'].append(content): extend the line
list of the last hunk recorded for key k.  This models the body of the
recording branch of post_comment, which is dead code in the source. -/
def dictAppendLineToLast (k : List Char) (content : List Char) :
    List (List Char × List Hunk) → List (List Char × List Hunk)
  | [] => []
  | (k', v') :: rest =>
    if k' == k then
      match v'.getLast? with
      | some h => (k', v'.dropLast ++ [⟨h.start_line, h.lines ++ [content]⟩]) :: rest
      | none => (k', v') :: rest
    else (k', v') :: dictAppendLineToLast k content rest

/-- Python truthiness of the current_file variable: a string is truthy
when it is set and non-empty. -/
def fileTruthy : Option (List Char) → Bool
  | some f => !f.isEmpty
  | none => false

/-- Diff scan of review.py post_comment (lines 174 to 200 of the
source) that builds the file_hunks table: a matching file header
installs an empty hunk list for the new file, a matching hunk header
appends a hunk record with int(group(1)) as start_line and an empty
line list, and any other line is recorded into the last hunk only when
both current_file and current_hunk are truthy.  current_hunk is
initialized to None and never assigned anywhere in the source, so that
recording branch never fires and every hunk's line list stays empty;
the model threads current_hunk faithfully as an always-none option. -/
def buildFileHunksLoop :
    List (List Char) → List (List Char × List Hunk) → Option (List Char) →
    Option Unit → List (List Char × List Hunk)
  | [], fh, _, _ => fh
  | line :: rest, fh, currentFile, currentHunk =>
    if startsWith ("diff --git".toList) line then
      match parseGitHeader line with
      | some f => buildFileHunksLoop rest (dictSet f [] fh) (some f) currentHunk
      | none => buildFileHunksLoop rest fh currentFile currentHunk
    else if startsWith ("@@".toList) line then
      match parseHunkHeader line with
      | some n =>
        match currentFile with
        | some f =>
          buildFileHunksLoop rest (dictAppendHunk f ⟨n, []⟩ fh) currentFile currentHunk
        | none => buildFileHunksLoop rest fh currentFile currentHunk
      | none => buildFileHunksLoop rest fh currentFile currentHunk
    else if fileTruthy currentFile && currentHunk.isSome then
      if startsWith ['+'] line && !startsWith ("+++".toList) line then
        match currentFile with
        | some f =>
          buildFileHunksLoop rest (dictAppendLineToLast f (rstripNL (line.drop 1)) fh)
            currentFile currentHunk
        | none => buildFileHunksLoop rest fh currentFile currentHunk
      else buildFileHunksLoop rest fh currentFile currentHunk
    else buildFileHunksLoop rest fh currentFile currentHunk

/-- The file_hunks table as review.py post_comment builds it from the
raw diff text, starting from the empty dict with current_file and
current_hunk both None. -/
def build_file_hunks (diff_content : List Char) : List (List Char × List Hunk) :=
  buildFileHunksLoop (splitLines diff_content) [] none none

/-- Review.py post_comment end to end, as the payload list it sends in
its create_review call: the hunk table is built from the raw diff and
the per-comment mapping and pair-dedup loop runs over it. -/
def post_comment (fetch : List Char → Option (List (List Char)))
    (comments : List RComment) (existing : List (List Char × Nat))
    (diff_content : List Char) : List Payload :=
  post_comment_payload fetch (build_file_hunks diff_content) existing comments

end Review

/-! Helper lemmas about the string model. -/

theorem isEmpty_false_iff {α : Type u} (l : List α) : l.isEmpty = false ↔ l ≠ [] := by
  cases l <;> simp

theorem dropWhile_dropWhile (p : Char → Bool) (l : List Char) :
    (l.dropWhile p).dropWhile p = l.dropWhile p := by
  induction l with
  | nil => rfl
  | cons a t ih =>
    by_cases h : p a
    · simp [List.dropWhile_cons, h, ih]
    · simp [List.dropWhile_cons, h]

theorem lstrip_lstrip (s : List Char) : lstrip (lstrip s) = lstrip s :=
  dropWhile_dropWhile pyws s

theorem rstrip_rstrip (s : List Char) : rstrip (rstrip s) = rstrip s := by
  unfold rstrip
  rw [List.reverse_reverse, dropWhile_dropWhile]

theorem rstrip_decomp (s : List Char) :
    s = rstrip s ++ (s.reverse.takeWhile pyws).reverse := by
  calc s = s.reverse.reverse := (List.reverse_reverse s).symm
    _ = (s.reverse.takeWhile pyws ++ s.reverse.dropWhile pyws).reverse := by
        rw [List.takeWhile_append_dropWhile]
    _ = (s.reverse.dropWhile pyws).reverse ++ (s.reverse.takeWhile pyws).reverse := by
        rw [List.reverse_append]
    _ = rstrip s ++ (s.reverse.takeWhile pyws).reverse := rfl

theorem dropWhile_eq_self_head (p : Char → Bool) (l : List Char) (c : Char)
    (u : List Char) (h : l.dropWhile p = l) (he : l = c :: u) : p c = false := by
  subst he
  by_cases hp : p c
  · rw [List.dropWhile_cons, if_pos hp] at h
    have hlen := congrArg List.length h
    have hle : (u.dropWhile p).length ≤ u.length := (List.dropWhile_sublist ..).length_le
    simp at hlen
    omega
  · exact Bool.eq_false_iff.mpr hp

theorem lstrip_of_rstrip_of_lstrip (s : List Char) :
    lstrip (rstrip (lstrip s)) = rstrip (lstrip s) := by
  cases hm : rstrip (lstrip s) with
  | nil => rfl
  | cons c t =>
    have hdec := rstrip_decomp (lstrip s)
    rw [hm] at hdec
    have hc : pyws c = false := by
      refine dropWhile_eq_self_head pyws (lstrip s) c
        (t ++ ((lstrip s).reverse.takeWhile pyws).reverse) (lstrip_lstrip s) ?_
      simpa using hdec
    unfold lstrip
    rw [List.dropWhile_cons, if_neg (by simp [hc])]

theorem strip_strip (s : List Char) : strip (strip s) = strip s := by
  unfold strip
  rw [lstrip_of_rstrip_of_lstrip, rstrip_rstrip]

theorem dropWhile_eq_nil_iff_all (p : Char → Bool) (l : List Char) :
    l.dropWhile p = [] ↔ ∀ c ∈ l, p c := by
  induction l with
  | nil => simp
  | cons a t ih =>
    by_cases h : p a
    · simp [List.dropWhile_cons, h, ih]
    · simp [List.dropWhile_cons, h]

theorem strip_eq_nil_iff (s : List Char) : strip s = [] ↔ ∀ c ∈ s, pyws c := by
  unfold strip rstrip lstrip
  rw [List.reverse_eq_nil_iff, dropWhile_eq_nil_iff_all]
  constructor
  · intro h c hc
    rcases (List.mem_append.mp
      ((List.takeWhile_append_dropWhile (p := pyws) (l := s)) ▸ hc)) with h1 | h1
    · exact List.mem_takeWhile_imp h1
    · exact h c (List.mem_reverse.mpr h1)
  · intro h c hc
    exact h c ((List.dropWhile_sublist ..).subset (List.mem_reverse.mp hc))

theorem mem_strip (s : List Char) (c : Char) (h : c ∈ strip s) : c ∈ s := by
  unfold strip rstrip lstrip at h
  have h1 := List.mem_reverse.mp h
  have h2 := (List.dropWhile_sublist ..).subset h1
  have h3 := List.mem_reverse.mp h2
  exact (List.dropWhile_sublist ..).subset h3

theorem mem_joinNL {c : Char} {l : List Char} {L : List (List Char)}
    (hl : l ∈ L) (hc : c ∈ l) : c ∈ joinNL L := by
  induction L with
  | nil => simp at hl
  | cons a L' ih =>
    cases L' with
    | nil =>
      simp at hl
      subst hl
      exact hc
    | cons b L'' =>
      show c ∈ a ++ '\n' :: joinNL (b :: L'')
      rcases List.mem_cons.mp hl with rfl | hl'
      · exact List.mem_append.mpr (Or.inl hc)
      · exact List.mem_append.mpr (Or.inr (List.mem_cons_of_mem _ (ih hl')))

theorem strip_joinNL_ne_nil {l : List Char} {L : List (List Char)}
    (hl : l ∈ L) (h : strip l ≠ []) : strip (joinNL L) ≠ [] := by
  intro hcon
  rw [strip_eq_nil_iff] at hcon
  apply h
  rw [strip_eq_nil_iff]
  intro c hc
  exact hcon c (mem_joinNL hl hc)

theorem splitLines_no_nl (s : List Char) : ∀ l ∈ splitLines s, '\n' ∉ l := by
  induction s with
  | nil => simp [splitLines]
  | cons c rest ih =>
    by_cases h : c = '\n'
    · subst h
      simp only [splitLines, if_pos rfl]
      intro l hl
      rcases List.mem_cons.mp hl with rfl | hl'
      · simp
      · exact ih l hl'
    · simp only [splitLines, if_neg h]
      cases hr : splitLines rest with
      | nil =>
        intro l hl
        simp at hl
        subst hl
        simp [Ne.symm h]
      | cons a as =>
        intro l hl
        rcases List.mem_cons.mp hl with rfl | hl'
        · intro hm
          rcases List.mem_cons.mp hm with he | hm'
          · exact h he.symm
          · exact ih a (hr ▸ List.mem_cons_self a as) hm'
        · exact ih l (hr ▸ List.mem_cons_of_mem a hl')

theorem splitLines_no_nl_id (l : List Char) (h : '\n' ∉ l) : splitLines l = [l] := by
  induction l with
  | nil => rfl
  | cons c t ih =>
    have hc : ¬ c = '\n' := fun he => h (he ▸ List.mem_cons_self c t)
    simp only [splitLines, if_neg hc]
    rw [ih (fun hm => h (List.mem_cons_of_mem c hm))]

theorem splitLines_append_cons (l s : List Char) (h : '\n' ∉ l) :
    splitLines (l ++ '\n' :: s) = l :: splitLines s := by
  induction l with
  | nil => simp [splitLines]
  | cons c t ih =>
    have hc : ¬ c = '\n' := fun he => h (he ▸ List.mem_cons_self c t)
    simp only [List.cons_append, splitLines, if_neg hc, List.append_eq]
    rw [ih (fun hm => h (List.mem_cons_of_mem c hm))]

theorem splitLines_joinNL (L : List (List Char)) (hne : L ≠ [])
    (h : ∀ l ∈ L, '\n' ∉ l) : splitLines (joinNL L) = L := by
  induction L with
  | nil => exact absurd rfl hne
  | cons a L' ih =>
    cases L' with
    | nil => exact splitLines_no_nl_id a (h a (List.mem_cons_self a []))
    | cons b L'' =>
      show splitLines (a ++ '\n' :: joinNL (b :: L'')) = _
      rw [splitLines_append_cons a _ (h a (List.mem_cons_self ..)),
        ih (by simp) (fun l hl => h l (List.mem_cons_of_mem _ hl))]

/-! Step and run lemmas for the block-extraction loop. -/

theorem extractLoop_nil (f : Option (List Char)) (i : Nat) (cl : List (List Char))
    (bl : List Block) (cur : Option (Nat × List (List Char))) (ci : Option Nat) :
    extractLoop f [] i cl bl cur ci = (joinNL cl, i, closeBlock f cur bl) := rfl

theorem extractLoop_step_break (f : Option (List Char)) (line : List Char)
    (rest : List (List Char)) (i : Nat) (cl : List (List Char)) (bl : List Block)
    (cur : Option (Nat × List (List Char))) (ci : Option Nat)
    (h : (startsWith ("diff --git".toList) line || startsWith ("@@".toList) line) = true) :
    extractLoop f (line :: rest) i cl bl cur ci = (joinNL cl, i, closeBlock f cur bl) := by
  simp only [extractLoop]
  rw [if_pos h]

theorem extractLoop_step_plus (f : Option (List Char)) (a : List Char)
    (rest : List (List Char)) (i : Nat) (cl : List (List Char)) (bl : List Block)
    (cur : Option (Nat × List (List Char))) (ci : Option Nat) :
    extractLoop f (('+' :: a) :: rest) i cl bl cur ci
    = extractLoop f rest (i + 1) (cl ++ ['+' :: a]) bl
        (if !(strip a).isEmpty then
          match cur with
          | none => some (i, [a])
          | some (st, blk) => some (st, blk ++ [a])
        else
          match cur with
          | none => none
          | some (st, blk) => some (st, blk ++ [a]))
        (if ci.isNone && !(strip a).isEmpty then some (lineIndent a) else ci) := rfl

theorem ite_true_eq {α : Sort u} (a b : α) : (if true = true then a else b) = a := rfl

theorem ite_false_eq {α : Sort u} (a b : α) : (if false = true then a else b) = b := rfl

theorem dite_true_eq {α : Sort u} (x : true = true → α) (y : ¬true = true → α) :
    dite (true = true) x y = x rfl := rfl

theorem extractLoop_step_sep (f : Option (List Char)) (sep : List Char)
    (rest : List (List Char)) (i : Nat) (cl : List (List Char)) (bl : List Block)
    (st : Nat) (blk : List (List Char)) (ci : Option Nat)
    (h1 : startsWith ("diff --git".toList) sep = false)
    (h2 : startsWith ("@@".toList) sep = false)
    (h3 : startsWith ['+'] sep = false) :
    extractLoop f (sep :: rest) i cl bl (some (st, blk)) ci
    = extractLoop f rest (i + 1) (cl ++ [sep]) (closeBlock f (some (st, blk)) bl)
        none none := by
  simp only [extractLoop, h1, h2, h3]
  rw [if_neg (by simp), if_neg (by simp)]
  by_cases hsp : startsWith [' '] sep = true
  · rw [if_pos hsp]
  · rw [if_neg hsp]

theorem extractLoop_plus_run (f : Option (List Char)) :
    ∀ (L : List (List Char)), (∀ l ∈ L, strip l ≠ []) →
    ∀ (rest : List (List Char)) (i : Nat) (cl : List (List Char)) (bl : List Block)
      (st : Nat) (blk : List (List Char)) (v : Nat),
      extractLoop f (L.map (List.cons '+') ++ rest) i cl bl (some (st, blk)) (some v)
      = extractLoop f rest (i + L.length) (cl ++ L.map (List.cons '+')) bl
          (some (st, blk ++ L)) (some v) := by
  intro L
  induction L with
  | nil => intro _ rest i cl bl st blk v; simp
  | cons a L' ih =>
    intro hL rest i cl bl st blk v
    have ha : (strip a).isEmpty = false :=
      (isEmpty_false_iff _).mpr (hL a (List.mem_cons_self ..))
    simp only [List.map_cons, List.cons_append]
    rw [extractLoop_step_plus]
    simp only [ha, Bool.not_false, Option.isNone_some, Bool.false_and, ite_true_eq,
      ite_false_eq, if_true, if_false, ite_self]
    rw [ih (fun l hl => hL l (List.mem_cons_of_mem _ hl)) rest (i + 1)
      (cl ++ ['+' :: a]) bl st (blk ++ [a]) v]
    have e1 : i + 1 + L'.length = i + (a :: L').length := by
      simp [List.length_cons]; omega
    have e2 : (cl ++ ['+' :: a]) ++ L'.map (List.cons '+')
        = cl ++ ('+' :: a) :: L'.map (List.cons '+') := by simp
    have e3 : (blk ++ [a]) ++ L' = blk ++ a :: L' := by simp
    rw [e1, e2, e3]

theorem extractLoop_plus_run_none (f : Option (List Char)) (a : List Char)
    (L' : List (List Char)) (ha : strip a ≠ []) (hL : ∀ l ∈ L', strip l ≠ [])
    (rest : List (List Char)) (i : Nat) (cl : List (List Char)) (bl : List Block) :
    extractLoop f ((a :: L').map (List.cons '+') ++ rest) i cl bl none none
    = extractLoop f rest (i + (L'.length + 1)) (cl ++ (a :: L').map (List.cons '+')) bl
        (some (i, a :: L')) (some (lineIndent a)) := by
  have ha' : (strip a).isEmpty = false := (isEmpty_false_iff _).mpr ha
  simp only [List.map_cons, List.cons_append]
  rw [extractLoop_step_plus]
  simp only [ha', Bool.not_false, Option.isNone_none, Bool.true_and, ite_true_eq,
    if_true, if_false, ite_self]
  rw [extractLoop_plus_run f L' hL rest (i + 1) (cl ++ ['+' :: a]) bl i [a]
    (lineIndent a)]
  have e1 : i + 1 + L'.length = i + (L'.length + 1) := by omega
  have e2 : (cl ++ ['+' :: a]) ++ L'.map (List.cons '+')
      = cl ++ ('+' :: a) :: L'.map (List.cons '+') := by simp
  have e3 : [a] ++ L' = a :: L' := by simp
  rw [e1, e2, e3]

theorem closeBlock_some_ne (f : Option (List Char)) (st : Nat)
    (blk : List (List Char)) (bl : List Block) (h : strip (joinNL blk) ≠ []) :
    closeBlock f (some (st, blk)) bl = bl ++ [⟨f, joinNL blk, st⟩] := by
  simp only [closeBlock, (isEmpty_false_iff _).mpr h]
  rfl

theorem extractLoop_blocks_nonblank (rest : List (List Char)) :
    ∀ (f : Option (List Char)) (i : Nat) (cl : List (List Char)) (bl : List Block)
      (cur : Option (Nat × List (List Char))) (ci : Option Nat),
      (∀ b ∈ bl, strip b.changes ≠ []) →
      ∀ b ∈ (extractLoop f rest i cl bl cur ci).2.2, strip b.changes ≠ [] := by
  have hclose : ∀ (f : Option (List Char)) (cur : Option (Nat × List (List Char)))
      (bl : List Block), (∀ b ∈ bl, strip b.changes ≠ []) →
      ∀ b ∈ closeBlock f cur bl, strip b.changes ≠ [] := by
    intro f cur bl hbl b hb
    match cur with
    | none => exact hbl b hb
    | some (st, blk) =>
      simp only [closeBlock] at hb
      split at hb
      · exact hbl b hb
      · rcases List.mem_append.mp hb with h1 | h1
        · exact hbl b h1
        · have hbe : b = ⟨f, joinNL blk, st⟩ := by simpa using h1
          subst hbe
          rename_i hne
          simpa [isEmpty_false_iff] using hne
  induction rest with
  | nil =>
    intro f i cl bl cur ci hbl
    exact hclose f cur bl hbl
  | cons line rest ih =>
    intro f i cl bl cur ci hbl
    simp only [extractLoop]
    repeat' split
    case _ => exact hclose f cur bl hbl
    all_goals first
      | exact ih _ _ _ _ _ _ hbl
      | exact ih _ _ _ _ _ _ (hclose f _ bl hbl)

/-! Helper lemmas for the chunker. -/

theorem chunk_diff_data_empty (s : Nat) : chunk_diff_data s [] = [] := by
  match s with
  | 0 => rfl
  | n + 1 =>
    simp [chunk_diff_data, Nat.div_eq_of_lt (show n < n + 1 by omega)]

theorem chunk_diff_data_cons (s : Nat) (hs : 1 ≤ s) (items : List DiffItem)
    (h : items ≠ []) :
    chunk_diff_data s items = items.take s :: chunk_diff_data s (items.drop s) := by
  unfold chunk_diff_data
  have hlen : 1 ≤ items.length := List.length_pos.mpr h
  have hcount : (items.length + s - 1) / s = ((items.drop s).length + s - 1) / s + 1 := by
    rw [List.length_drop]
    by_cases hls : items.length ≤ s
    · have e1 : items.length + s - 1 = (items.length - 1) + s := by omega
      have e2 : items.length - s + s - 1 = s - 1 := by omega
      rw [e1, e2, Nat.add_div_right _ hs,
        Nat.div_eq_of_lt (show items.length - 1 < s by omega),
        Nat.div_eq_of_lt (show s - 1 < s by omega)]
    · have e1 : items.length + s - 1 = ((items.length - s - 1) + s) + s := by omega
      have e2 : items.length - s + s - 1 = (items.length - s - 1) + s := by omega
      rw [e1, e2, Nat.add_div_right _ hs, Nat.add_div_right _ hs]
  rw [hcount, List.range_succ_eq_map]
  simp only [List.map_cons, List.map_map, Nat.zero_mul, List.drop_zero]
  congr 1
  refine List.map_congr_left ?_
  intro k _
  simp only [Function.comp_apply, List.drop_drop]
  congr 2
  calc Nat.succ k * s = (k + 1) * s := rfl
    _ = k * s + s := Nat.succ_mul k s
    _ = s + k * s := Nat.add_comm ..

/-! Helper lemmas for reconciliation. -/

theorem find?_append_first {α : Type} (p : α → Bool) (pre : List α) (e : α)
    (post : List α) (hpre : ∀ x ∈ pre, p x = false) (he : p e = true) :
    List.find? p (pre ++ e :: post) = some e := by
  induction pre with
  | nil => simpa using List.find?_cons_of_pos post he
  | cons a t ih =>
    have ha := hpre a (List.mem_cons_self ..)
    rw [List.cons_append, List.find?_cons_of_neg _ (by simp [ha]),
      ih (fun x hx => hpre x (List.mem_cons_of_mem _ hx))]

theorem apply_review_comments_single (c : ReviewComment) (sdiff : List DiffItem) :
    apply_review_comments ⟨[c]⟩ sdiff
    = match sdiff.find? (fun e => e.file_path == some c.file_path &&
        normalize_code e.changes == normalize_code c.line_string) with
      | some e => [⟨c.file_path, e.line, "**Finding**: ".toList ++ c.comment⟩]
      | none => [] := by
  show (match sdiff.find? _ with
    | some e => [] ++ [(⟨c.file_path, e.line, "**Finding**: ".toList ++ c.comment⟩ : GHComment)]
    | none => ([] : List GHComment)) = _
  cases sdiff.find? (fun e => e.file_path == some c.file_path &&
      normalize_code e.changes == normalize_code c.line_string) <;> simp

theorem matchesF_iff (c : ReviewComment) (e : DiffItem) :
    (e.file_path == some c.file_path &&
      normalize_code e.changes == normalize_code c.line_string) = true ↔ matchesF c e := by
  simp [matchesF, Bool.and_eq_true, beq_iff_eq]

theorem apply_first_match (c : ReviewComment) (pre : List DiffItem) (e : DiffItem)
    (post : List DiffItem) (hpre : ∀ x ∈ pre, ¬ matchesF c x) (he : matchesF c e) :
    apply_review_comments ⟨[c]⟩ (pre ++ e :: post)
    = [⟨c.file_path, e.line, "**Finding**: ".toList ++ c.comment⟩] := by
  rw [apply_review_comments_single,
    find?_append_first _ pre e post
      (fun x hx => Bool.eq_false_iff.mpr (fun hb => hpre x hx ((matchesF_iff c x).mp hb)))
      ((matchesF_iff c e).mpr he)]

theorem apply_no_match (c : ReviewComment) (sdiff : List DiffItem)
    (h : ∀ x ∈ sdiff, ¬ matchesF c x) : apply_review_comments ⟨[c]⟩ sdiff = [] := by
  rw [apply_review_comments_single,
    List.find?_eq_none.mpr (fun x hx hb => h x hx ((matchesF_iff c x).mp hb))]

/-! Step lemmas for the structured-diff scan loop. -/

theorem csdLoop_nil (i : Nat) (cf : Option (List Char)) (cl : Int)
    (acc : List DiffItem) : csdLoop [] i cf cl acc = acc := by
  rw [csdLoop]

theorem csdLoop_step_git (line : List Char) (rest : List (List Char)) (i : Nat)
    (cf : Option (List Char)) (cl : Int) (acc : List DiffItem)
    (h : startsWith ("diff --git".toList) line = true) :
    csdLoop (line :: rest) i cf cl acc
    = csdLoop rest (i + 1)
        (match parseGitHeader line with | some f => some f | none => cf) cl acc := by
  conv_lhs => rw [csdLoop]
  simp only [h, ite_true_eq, if_true, if_false]

theorem csdLoop_step_hunk (line : List Char) (rest : List (List Char)) (i : Nat)
    (cf : Option (List Char)) (cl : Int) (acc : List DiffItem)
    (h1 : startsWith ("diff --git".toList) line = false)
    (h2 : startsWith ("index ".toList) line = false)
    (h3 : startsWith ("--- ".toList) line = false)
    (h4 : startsWith ("+++ ".toList) line = false)
    (h5 : startsWith ("@@".toList) line = true) :
    csdLoop (line :: rest) i cf cl acc
    = csdLoop rest (i + 1) cf
        (match parseHunkHeader line with | some n => (n : Int) - 1 | none => cl) acc := by
  conv_lhs => rw [csdLoop]
  simp only [h1, h2, h3, h4, h5, Bool.or_self, Bool.or_false, Bool.false_or,
    ite_true_eq, ite_false_eq, if_true, if_false]

theorem csdLoop_step_extract (line : List Char) (rest : List (List Char)) (i : Nat)
    (cf : Option (List Char)) (cl : Int) (acc : List DiffItem)
    (h1 : startsWith ("diff --git".toList) line = false)
    (h2 : startsWith ("index ".toList) line = false)
    (h3 : startsWith ("--- ".toList) line = false)
    (h4 : startsWith ("+++ ".toList) line = false)
    (h5 : startsWith ("@@".toList) line = false)
    (h6 : (startsWith ['+'] line || startsWith [' '] line) = true) :
    csdLoop (line :: rest) i cf cl acc
    = csdLoop ((line :: rest).drop
        ((extractLoop cf (line :: rest) i [] [] none none).2.1 - i))
        (extractLoop cf (line :: rest) i [] [] none none).2.1 cf
        (cl + (((extractLoop cf (line :: rest) i [] [] none none).2.1 : Int) - (i : Int)))
        (acc ++ (extractLoop cf (line :: rest) i [] [] none none).2.2.filterMap (fun b =>
          if (strip b.changes).isEmpty then none
          else some (⟨b.file_path, b.changes, cl + ((b.start_line : Int) - (i : Int)) + 1,
            []⟩ : DiffItem))) := by
  conv_lhs => rw [csdLoop]
  simp only [h1, h2, h3, h4, h5, h6, Bool.or_self, Bool.or_false, Bool.false_or,
    ite_true_eq, ite_false_eq, if_true, if_false, dite_true_eq]
  rw [dif_pos trivial]


/-! Evaluation lemmas for the hunk-header parse with an abstract digit
run, and for a one-file one-hunk diff of added lines. -/

theorem takeWhile_all_append (p : Char → Bool) (xs : List Char) (y : Char)
    (ys : List Char) (hxs : ∀ x ∈ xs, p x = true) (hy : p y = false) :
    (xs ++ y :: ys).takeWhile p = xs := by
  induction xs with
  | nil => simp [List.takeWhile_cons, hy]
  | cons a t ih =>
    have ha := hxs a (List.mem_cons_self ..)
    simp [List.takeWhile_cons, ha, ih (fun x hx => hxs x (List.mem_cons_of_mem _ hx))]

theorem dropWhile_all_append (p : Char → Bool) (xs : List Char) (y : Char)
    (ys : List Char) (hxs : ∀ x ∈ xs, p x = true) (hy : p y = false) :
    (xs ++ y :: ys).dropWhile p = y :: ys := by
  induction xs with
  | nil => simp [List.dropWhile_cons, hy]
  | cons a t ih =>
    have ha := hxs a (List.mem_cons_self ..)
    simp [List.dropWhile_cons, ha, ih (fun x hx => hxs x (List.mem_cons_of_mem _ hx))]

theorem parseHunkHeader_at (ds : List Char) (hds : ds ≠ [])
    (hdig : ∀ d ∈ ds, d.isDigit = true) :
    parseHunkHeader ("@@ -1,1 +".toList ++ ds ++ ",5 @@".toList)
    = some (digitsToNat ds) := by
  have hcomma : (',' : Char).isDigit = false := by decide
  have ht : (ds ++ ",5 @@".toList).takeWhile Char.isDigit = ds := by
    rw [show ",5 @@".toList = ',' :: "5 @@".toList from rfl]
    exact takeWhile_all_append _ ds ',' _ hdig hcomma
  have hdw : (ds ++ ",5 @@".toList).dropWhile Char.isDigit = ',' :: "5 @@".toList := by
    rw [show ",5 @@".toList = ',' :: "5 @@".toList from rfl]
    exact dropWhile_all_append _ ds ',' _ hdig hcomma
  have step : parseHunkHeader ("@@ -1,1 +".toList ++ ds ++ ",5 @@".toList)
      = (if (ds ++ ",5 @@".toList).takeWhile Char.isDigit = [] then none
         else match expectLit (" @@".toList)
             (optCommaDigits ((ds ++ ",5 @@".toList).dropWhile Char.isDigit)) with
           | none => none
           | some _ => some (digitsToNat ((ds ++ ",5 @@".toList).takeWhile Char.isDigit))) := by
    rw [List.append_assoc]
    rfl
  rw [step, ht, hdw, if_neg hds]
  rfl

theorem csd_single_hunk (ds : List Char) (a : List Char) (L' : List (List Char))
    (hds : ds ≠ []) (hdig : ∀ d ∈ ds, d.isDigit = true)
    (ha : strip a ≠ []) (hpa : startsWith ("++ ".toList) a = false)
    (hL : ∀ l ∈ L', strip l ≠ []) :
    csdLoop ("diff --git a/a.py b/a.py".toList
        :: ("@@ -1,1 +".toList ++ ds ++ ",5 @@".toList)
        :: (a :: L').map (List.cons '+')) 0 none 0 []
    = [⟨some ("a.py".toList), joinNL (a :: L'), (digitsToNat ds : Int), []⟩] := by
  rw [csdLoop_step_git _ _ _ _ _ _ (by decide),
    show (match parseGitHeader ("diff --git a/a.py b/a.py".toList) with
      | some f => some f | none => (none : Option (List Char)))
      = some ("a.py".toList) from rfl]
  rw [csdLoop_step_hunk ("@@ -1,1 +".toList ++ ds ++ ",5 @@".toList) _ _ _ _ _
      rfl rfl rfl rfl rfl,
    show (match parseHunkHeader ("@@ -1,1 +".toList ++ ds ++ ",5 @@".toList) with
      | some n => (n : Int) - 1 | none => (0 : Int))
      = (digitsToNat ds : Int) - 1 from by rw [parseHunkHeader_at ds hds hdig]]
  rw [List.map_cons]
  rw [csdLoop_step_extract ('+' :: a) _ _ _ _ _ rfl rfl rfl hpa rfl rfl]
  have hex : extractLoop (some ("a.py".toList))
      (('+' :: a) :: L'.map (List.cons '+')) 2 [] [] none none
      = (joinNL (('+' :: a) :: L'.map (List.cons '+')), 2 + (L'.length + 1),
         [⟨some ("a.py".toList), joinNL (a :: L'), 2⟩]) := by
    have h0 : ('+' :: a) :: L'.map (List.cons '+')
        = (a :: L').map (List.cons '+') ++ [] := by simp
    rw [h0, extractLoop_plus_run_none _ a L' ha hL, extractLoop_nil,
      closeBlock_some_ne _ _ _ _ (strip_joinNL_ne_nil (List.mem_cons_self ..) ha)]
    simp
  rw [hex]
  have hdrop : (2 + (L'.length + 1)) - 2 = (('+' :: a) :: L'.map (List.cons '+')).length := by
    simp
  rw [hdrop, List.drop_length, csdLoop_nil]
  have harith : (digitsToNat ds : Int) - 1 + (((2 : Nat) : Int) - ((2 : Nat) : Int)) + 1
      = (digitsToNat ds : Int) := by ring
  simp only [List.filterMap_cons, List.filterMap_nil,
    (isEmpty_false_iff _).mpr (strip_joinNL_ne_nil (List.mem_cons_self a L') ha),
    harith]
  simp [harith]


/-! Claim theorems. -/

/-- Claim C9: the normalization function is idempotent: applying
_normalize_code twice gives the same result as applying it once, and
strings already consisting of stripped non-blank newline-joined lines
are its fixed points. -/
theorem c9_normalize_idempotent (s : List Char) :
    normalize_code (normalize_code s) = normalize_code s := by
  have key : ∀ (ls : List (List Char)), (∀ x ∈ ls, strip x = x ∧ x ≠ [] ∧ '\n' ∉ x) →
      normalize_code (joinNL ls) = joinNL ls := by
    intro ls hx
    cases ls with
    | nil => rfl
    | cons a ls' =>
      unfold normalize_code
      rw [splitLines_joinNL _ (by simp) (fun l hl => (hx l hl).2.2)]
      have hfilter : (a :: ls').filter (fun l => !(strip l).isEmpty) = a :: ls' := by
        refine List.filter_eq_self.mpr ?_
        intro x hxm
        rw [(hx x hxm).1]
        simp [(isEmpty_false_iff x).mpr (hx x hxm).2.1]
      rw [hfilter, List.map_congr_left (fun x hxm => (hx x hxm).1), List.map_id']
  show normalize_code (joinNL (((splitLines s).filter
    (fun line => !(strip line).isEmpty)).map strip)) = _
  apply key
  intro x hxm
  rcases List.mem_map.mp hxm with ⟨l, hlmem, rfl⟩
  have hfl := List.mem_filter.mp hlmem
  refine ⟨strip_strip l, (isEmpty_false_iff _).mp (by simpa using hfl.2), ?_⟩
  intro hnl
  exact (splitLines_no_nl s l hfl.1) (mem_strip l '\n' hnl)

/-- Claim C5: for every item list and chunk size at least one, the
chunker yields order-preserving slices whose concatenation is exactly
the input, no chunk is empty, every chunk has length at most the chunk
size, every chunk except the last has length exactly the chunk size,
and the empty input yields zero chunks. -/
theorem c5_chunk_partition (chunk_size : Nat) (hs : 1 ≤ chunk_size)
    (items : List DiffItem) :
    (chunk_diff_data chunk_size items).flatten = items ∧
    (∀ c ∈ chunk_diff_data chunk_size items, c ≠ [] ∧ c.length ≤ chunk_size) ∧
    (∀ c ∈ (chunk_diff_data chunk_size items).dropLast, c.length = chunk_size) ∧
    (items = [] → chunk_diff_data chunk_size items = []) := by
  suffices H : ∀ (n : Nat) (its : List DiffItem), its.length = n →
      (chunk_diff_data chunk_size its).flatten = its ∧
      (∀ c ∈ chunk_diff_data chunk_size its, c ≠ [] ∧ c.length ≤ chunk_size) ∧
      (∀ c ∈ (chunk_diff_data chunk_size its).dropLast, c.length = chunk_size) ∧
      (its = [] → chunk_diff_data chunk_size its = []) by
    exact H items.length items rfl
  intro n
  induction n using Nat.strong_induction_on with
  | _ n ih =>
    intro its hlen
    by_cases hnil : its = []
    · subst hnil
      simp [chunk_diff_data_empty]
    · rw [chunk_diff_data_cons chunk_size hs its hnil]
      have hpos : 0 < its.length := List.length_pos.mpr hnil
      have hdlen : (its.drop chunk_size).length < n := by
        rw [List.length_drop]
        omega
      obtain ⟨ih1, ih2, ih3, ih4⟩ := ih _ (hlen ▸ hdlen) (its.drop chunk_size) rfl
      refine ⟨?_, ?_, ?_, fun h => absurd h hnil⟩
      · rw [List.flatten_cons, ih1, List.take_append_drop]
      · intro c hc
        rcases List.mem_cons.mp hc with rfl | hc'
        · refine ⟨?_, List.length_take_le ..⟩
          cases its with
          | nil => exact absurd rfl hnil
          | cons x xs =>
            cases chunk_size with
            | zero => omega
            | succ m => simp
        · exact ih2 c hc'
      · cases hcs : chunk_diff_data chunk_size (its.drop chunk_size) with
        | nil => simp
        | cons d ds =>
          intro c hc
          rw [List.dropLast_cons₂] at hc
          rcases List.mem_cons.mp hc with rfl | hc'
          · have hdropne : its.drop chunk_size ≠ [] := by
              intro hd
              rw [hd, chunk_diff_data_empty] at hcs
              exact List.cons_ne_nil d ds hcs.symm
            have hge : chunk_size ≤ its.length := by
              by_contra hlt
              push_neg at hlt
              exact hdropne (List.drop_eq_nil_iff.mpr (by omega))
            rw [List.length_take]
            omega
          · rw [← hcs] at hc'
            exact ih3 c hc'


/-- Runs of the process_chunks loop fail with the error of the first
failing chunk when all earlier chunks succeed. -/
theorem process_chunksGo_error (gen : List DiffItem → Except (List Char) ReviewResponse) :
    ∀ (pre : List (List DiffItem)), (∀ ch ∈ pre, ∃ r, gen ch = .ok r) →
    ∀ (c : List DiffItem) (post : List (List DiffItem)) (e : List Char),
    gen c = .error e → process_chunksGo gen (pre ++ c :: post) = .error e := by
  intro pre
  induction pre with
  | nil =>
    intro _ c post e hc
    simp only [List.nil_append, process_chunksGo, hc]
  | cons ch t ih =>
    intro h c post e hc
    obtain ⟨r, hr⟩ := h ch (List.mem_cons_self ..)
    simp only [List.cons_append, process_chunksGo, hr, List.append_eq,
      ih (fun x hx => h x (List.mem_cons_of_mem _ hx)) c post e hc]

/-- Claim C1 as corrected: the position of an emitted DiffItem is taken
from the at-at hunk header, not from a count of consumed diff lines:
for a diff with one file header, one hunk header whose new-file start
field is the digit run ds, and a run of non-blank added lines, the
single emitted item carries position int(ds), whatever ds is. -/
theorem c1_position_from_hunk_header (ds : List Char) (a : List Char)
    (L' : List (List Char)) (hds : ds ≠ []) (hdig : ∀ d ∈ ds, d.isDigit = true)
    (ha : strip a ≠ []) (hpa : startsWith ("++ ".toList) a = false)
    (hL : ∀ l ∈ L', strip l ≠ []) (hnl : ∀ l ∈ a :: L', '\n' ∉ l) :
    create_structured_diff (joinNL ("diff --git a/a.py b/a.py".toList
        :: ("@@ -1,1 +".toList ++ ds ++ ",5 @@".toList)
        :: (a :: L').map (List.cons '+')))
    = [⟨some ("a.py".toList), joinNL (a :: L'), (digitsToNat ds : Int), []⟩] := by
  have hn : ∀ l ∈ ("diff --git a/a.py b/a.py".toList
      :: ("@@ -1,1 +".toList ++ ds ++ ",5 @@".toList)
      :: (a :: L').map (List.cons '+')), '\n' ∉ l := by
    intro l hl
    rcases List.mem_cons.mp hl with rfl | hl2
    · decide
    rcases List.mem_cons.mp hl2 with rfl | hl3
    · intro hmem
      rcases List.mem_append.mp hmem with hm | hm
      · rcases List.mem_append.mp hm with hm2 | hm2
        · revert hm2; decide
        · exact absurd (hdig _ hm2) (by decide)
      · revert hm; decide
    · rcases List.mem_map.mp hl3 with ⟨x, hx, rfl⟩
      intro hmem
      rcases List.mem_cons.mp hmem with he | hm
      · exact absurd he (by decide)
      · exact (hnl x hx) hm
  unfold create_structured_diff
  rw [splitLines_joinNL _ (by simp) hn]
  exact csd_single_hunk ds a L' hds hdig ha hpa hL

/-- Looking a value up in the assoc-list dict preserves any property
that holds of every stored value. -/
theorem lookup_property {β : Type} (P : β → Prop) (k : List Char) :
    ∀ (l : List (List Char × β)) (v : β), l.lookup k = some v →
    (∀ p ∈ l, P p.2) → P v := by
  intro l
  induction l with
  | nil =>
    intro v h _
    simp [List.lookup] at h
  | cons p rest ih =>
    intro v h hall
    obtain ⟨k', v'⟩ := p
    cases hkc : k == k' with
    | true =>
      simp only [List.lookup, hkc, Option.some.injEq] at h
      subst h
      exact hall (k', v') (List.mem_cons_self ..)
    | false =>
      simp only [List.lookup, hkc] at h
      exact ih v h (fun q hq => hall q (List.mem_cons_of_mem _ hq))

/-- The position search fails on hunks whose line lists are all empty. -/
theorem findPosGo_empty (ls : List Char) :
    ∀ (hunks : List Review.Hunk), (∀ hk ∈ hunks, hk.lines = []) →
    Review.findPosGo ls hunks none = none := by
  intro hunks
  induction hunks with
  | nil => intro _; rfl
  | cons hk rest ih =>
    intro hempty
    have hm : Review.hunkMatchPos hk ls = none := by
      unfold Review.hunkMatchPos
      rw [hempty hk (List.mem_cons_self ..)]
      rfl
    simp only [Review.findPosGo, hm, Review.optTruthy, ite_false_eq]
    exact ih (fun x hx => hempty x (List.mem_cons_of_mem _ hx))

/-- Dict assignment of an empty hunk list preserves the all-lines-empty
invariant of the table. -/
theorem dictSet_inv (k : List Char) :
    ∀ (fh : List (List Char × List Review.Hunk)),
      (∀ p ∈ fh, ∀ h ∈ p.2, h.lines = []) →
      ∀ p ∈ Review.dictSet k [] fh, ∀ h ∈ p.2, h.lines = [] := by
  intro fh
  induction fh with
  | nil =>
    intro _ p hp h hh
    simp [Review.dictSet] at hp
    subst hp
    simp at hh
  | cons q rest ih =>
    intro hinv p hp h hh
    obtain ⟨k', v'⟩ := q
    simp only [Review.dictSet] at hp
    split at hp
    · rcases List.mem_cons.mp hp with rfl | hp'
      · simp at hh
      · exact hinv p (List.mem_cons_of_mem _ hp') h hh
    · rcases List.mem_cons.mp hp with rfl | hp'
      · exact hinv (k', v') (List.mem_cons_self ..) h hh
      · exact ih (fun q hq => hinv q (List.mem_cons_of_mem _ hq)) p hp' h hh

/-- Appending a hunk record with an empty line list preserves the
all-lines-empty invariant of the table. -/
theorem dictAppendHunk_inv (k : List Char) (n : Nat) :
    ∀ (fh : List (List Char × List Review.Hunk)),
      (∀ p ∈ fh, ∀ h ∈ p.2, h.lines = []) →
      ∀ p ∈ Review.dictAppendHunk k ⟨n, []⟩ fh, ∀ h ∈ p.2, h.lines = [] := by
  intro fh
  induction fh with
  | nil =>
    intro _ p hp h hh
    simp [Review.dictAppendHunk] at hp
  | cons q rest ih =>
    intro hinv p hp h hh
    obtain ⟨k', v'⟩ := q
    simp only [Review.dictAppendHunk] at hp
    split at hp
    · rcases List.mem_cons.mp hp with rfl | hp'
      · rcases List.mem_append.mp hh with h1 | h1
        · exact hinv (k', v') (List.mem_cons_self ..) h h1
        · have he : h = (⟨n, []⟩ : Review.Hunk) := by simpa using h1
          rw [he]
      · exact hinv p (List.mem_cons_of_mem _ hp') h hh
    · rcases List.mem_cons.mp hp with rfl | hp'
      · exact hinv (k', v') (List.mem_cons_self ..) h hh
      · exact ih (fun q hq => hinv q (List.mem_cons_of_mem _ hq)) p hp' h hh

/-- With current_hunk still None, every hunk the table-building scan of
post_comment records keeps an empty line list: the recording branch is
dead because nothing ever assigns current_hunk. -/
theorem buildFileHunksLoop_lines_empty :
    ∀ (lines : List (List Char)) (fh : List (List Char × List Review.Hunk))
      (currentFile : Option (List Char)),
      (∀ p ∈ fh, ∀ h ∈ p.2, h.lines = []) →
      ∀ p ∈ Review.buildFileHunksLoop lines fh currentFile none,
        ∀ h ∈ p.2, h.lines = [] := by
  intro lines
  induction lines with
  | nil =>
    intro fh cf hinv
    exact hinv
  | cons line rest ih =>
    intro fh cf hinv
    simp only [Review.buildFileHunksLoop, Option.isSome_none, Bool.and_false,
      ite_false_eq]
    repeat' split
    all_goals first
      | exact ih _ _ hinv
      | exact ih _ _ (dictSet_inv _ _ hinv)
      | exact ih _ _ (dictAppendHunk_inv _ _ _ hinv)

/-- With all hunk line lists empty, the per-comment mapping step of
post_comment drops every comment at position mapping, before the
existing-comment pair check is ever consulted. -/
theorem processComment_none_of_empty_hunks
    (fetch : List Char → Option (List (List Char)))
    (file_hunks : List (List Char × List Review.Hunk))
    (existing : List (List Char × Nat)) (c : Review.RComment)
    (hempty : ∀ p ∈ file_hunks, ∀ h ∈ p.2, h.lines = []) :
    Review.processComment fetch file_hunks existing c = none := by
  unfold Review.processComment
  cases hfl : Review.find_line_number fetch c.file_path c.line_string with
  | none => rfl
  | some ln =>
    have hpos : (match file_hunks.lookup c.file_path with
        | some hs => Review.find_position_in_diff hs c.line_string
        | none => none) = none := by
      cases hlk : file_hunks.lookup c.file_path with
      | none => rfl
      | some hs =>
        have hh : ∀ hk ∈ hs, hk.lines = [] :=
          lookup_property (fun v => ∀ hk ∈ v, hk.lines = [])
            c.file_path file_hunks hs hlk hempty
        exact findPosGo_empty c.line_string hs hh
    simp only [hpos]

/-- Claim C2 as corrected: no deduplication ever takes effect: the
structured-diff builder consults no existing comments, and in
review.py's post_comment the pair check against the existing-comment
set is unreachable, because the hunk table the function builds records
only empty line lists (current_hunk is never assigned), position
mapping fails for every comment, and the payload is empty for every
diff, snapshot and comment list. -/
theorem c2_dedup_unreachable (fetch : List Char → Option (List (List Char)))
    (diff_content : List Char) (existing : List (List Char × Nat))
    (comments : List Review.RComment) :
    (∀ p ∈ Review.build_file_hunks diff_content, ∀ h ∈ p.2, h.lines = []) ∧
    Review.post_comment fetch comments existing diff_content = [] := by
  have hempty : ∀ p ∈ Review.build_file_hunks diff_content, ∀ h ∈ p.2, h.lines = [] :=
    buildFileHunksLoop_lines_empty (splitLines diff_content) [] none (by simp)
  refine ⟨hempty, ?_⟩
  unfold Review.post_comment Review.post_comment_payload
  rw [List.filterMap_eq_nil_iff]
  intro c _
  exact processComment_none_of_empty_hunks fetch _ existing c hempty

/-- Claim C3 as corrected: a chunk whose backend call fails aborts the
run: process_chunks propagates the error of the first failing chunk and
produces no response list, instead of skipping the chunk and continuing. -/
theorem c3_abort_on_first_error
    (gen : List DiffItem → Except (List Char) ReviewResponse)
    (chunk_size : Nat) (sdiff : List DiffItem)
    (pre : List (List DiffItem)) (c : List DiffItem) (post : List (List DiffItem))
    (e : List Char)
    (hsplit : chunk_diff_data chunk_size sdiff = pre ++ c :: post)
    (hpre : ∀ ch ∈ pre, ∃ r, gen ch = .ok r)
    (hc : gen c = .error e) :
    process_chunks gen chunk_size sdiff = .error e := by
  unfold process_chunks
  rw [hsplit]
  exact process_chunksGo_error gen pre hpre c post e hc

/-- Claim C4 as corrected: post_comments posts the marker comment, with
text tag Last Processed SHA followed by the head SHA and no timestamp,
only when at least one review comment exists; with zero comments it
posts nothing at all, marker included. -/
theorem c4_marker_only_with_comments (comments : List GHComment) (sha : List Char) :
    (comments ≠ [] → post_comments comments sha
      = [.createReview comments,
         .issueComment ("@corivai-review Last Processed SHA: ".toList ++ sha)]) ∧
    post_comments [] sha = [] := by
  constructor
  · intro h
    unfold post_comments
    simp [(isEmpty_false_iff comments).mpr h]
  · rfl

/-- Claim C6: a run of non-blank added lines interrupted by a separator
line that is neither an addition nor a header (a context line or a
removal) is emitted as two separate blocks, the separator closing the
first block and the second starting at the following added line; and no
emitted block ever has empty or whitespace-only joined content. -/
theorem c6_segmentation :
    (∀ (a : List Char) (A' : List (List Char)) (b : List Char) (B' : List (List Char))
        (sep : List Char) (f : Option (List Char)),
        strip a ≠ [] → (∀ l ∈ A', strip l ≠ []) →
        strip b ≠ [] → (∀ l ∈ B', strip l ≠ []) →
        startsWith ['+'] sep = false →
        startsWith ("diff --git".toList) sep = false →
        startsWith ("@@".toList) sep = false →
        (extract_code_block
          ((a :: A').map (List.cons '+') ++ sep :: (b :: B').map (List.cons '+')) 0 f).2.2
        = [⟨f, joinNL (a :: A'), 0⟩, ⟨f, joinNL (b :: B'), A'.length + 2⟩]) ∧
    (∀ (lines : List (List Char)) (start_idx : Nat) (f : Option (List Char)),
        ∀ blk ∈ (extract_code_block lines start_idx f).2.2, strip blk.changes ≠ []) := by
  constructor
  · intro a A' b B' sep f ha hA hb hB hsp hsd hsh
    unfold extract_code_block
    simp only [List.drop_zero]
    rw [extractLoop_plus_run_none f a A' ha hA]
    rw [extractLoop_step_sep f sep _ _ _ _ _ _ _ hsd hsh hsp]
    rw [closeBlock_some_ne f 0 (a :: A') []
      (strip_joinNL_ne_nil (List.mem_cons_self ..) ha)]
    rw [(List.append_nil ((b :: B').map (List.cons '+'))).symm]
    rw [extractLoop_plus_run_none f b B' hb hB]
    rw [extractLoop_nil]
    rw [closeBlock_some_ne f _ (b :: B') _
      (strip_joinNL_ne_nil (List.mem_cons_self ..) hb)]
    simp
  · intro lines start_idx f
    exact extractLoop_blocks_nonblank _ _ _ _ _ _ _ (by simp)

/-- Claim C7: for each returned Finding, reconciliation produces nothing
when no structured-diff item matches on file path and normalized
changes, and raises nothing; when matches exist the first matching item
in order is selected and exactly one comment is produced, with body
text Finding prefix followed by the comment text. -/
theorem c7_reconciliation (c : ReviewComment) :
    (∀ sdiff : List DiffItem, (∀ e ∈ sdiff, ¬ matchesF c e) →
        apply_review_comments ⟨[c]⟩ sdiff = []) ∧
    (∀ (pre : List DiffItem) (e : DiffItem) (post : List DiffItem),
        (∀ x ∈ pre, ¬ matchesF c x) → matchesF c e →
        apply_review_comments ⟨[c]⟩ (pre ++ e :: post)
        = [⟨c.file_path, e.line, "**Finding**: ".toList ++ c.comment⟩]) :=
  ⟨fun sdiff h => apply_no_match c sdiff h,
   fun pre e post h1 h2 => apply_first_match c pre e post h1 h2⟩

/-- Claim C8 as corrected: reconciliation performs no position check:
a Finding whose first matching item has position less than or equal to
zero is not dropped, and the emitted comment carries that non-positive
position unchanged. -/
theorem c8_no_position_check (c : ReviewComment) (pre : List DiffItem) (e : DiffItem)
    (post : List DiffItem) (hpre : ∀ x ∈ pre, ¬ matchesF c x) (he : matchesF c e)
    (hnp : e.line ≤ 0) :
    apply_review_comments ⟨[c]⟩ (pre ++ e :: post)
    = [⟨c.file_path, e.line, "**Finding**: ".toList ++ c.comment⟩] :=
  apply_first_match c pre e post hpre he

/-- Claim C10: whenever extract_code_block is invoked on an index whose
line starts with a plus or a space, as the create_structured_diff scan
loop does, it returns an index strictly greater than the start index
and at most the number of lines, so the outer loop makes strict
progress and terminates. -/
theorem c10_extract_progress (lines : List (List Char)) (start_idx : Nat)
    (f : Option (List Char)) (h1 : start_idx < lines.length)
    (h2 : startsWith ['+'] (lines.get ⟨start_idx, h1⟩) = true ∨
          startsWith [' '] (lines.get ⟨start_idx, h1⟩) = true) :
    start_idx < (extract_code_block lines start_idx f).2.1 ∧
    (extract_code_block lines start_idx f).2.1 ≤ lines.length := by
  have hd : lines.drop start_idx
      = lines.get ⟨start_idx, h1⟩ :: lines.drop (start_idx + 1) := by
    rw [List.drop_eq_getElem_cons h1]
    simp
  have h2or : (startsWith ['+'] (lines.get ⟨start_idx, h1⟩) ||
      startsWith [' '] (lines.get ⟨start_idx, h1⟩)) = true := by
    rcases h2 with h | h
    · rw [h]
      rfl
    · rw [h, Bool.or_true]
  have hnb := not_header_of_plus_or_space (lines.get ⟨start_idx, h1⟩) h2or
  constructor
  · have hgt := extractLoop_cons_idx_gt (lines.get ⟨start_idx, h1⟩)
      (lines.drop (start_idx + 1)) f start_idx [] [] none none hnb.1 hnb.2
    unfold extract_code_block
    rw [hd]
    omega
  · have hle := extractLoop_idx_le (lines.drop start_idx) f start_idx [] [] none none
    have hdl : (lines.drop start_idx).length = lines.length - start_idx :=
      List.length_drop ..
    unfold extract_code_block
    omega



/-- Decidability of the reconciliation match predicate. -/
instance matchesF_decidable (c : ReviewComment) (e : DiffItem) :
    Decidable (matchesF c e) := by
  unfold matchesF
  infer_instance

/-- Witness for claim C1: with hunk header at-at minus 1,1 plus 10,5
at-at the single added line is emitted at position 10. -/
theorem c1_position_from_hunk_header_witness :
    create_structured_diff
      ("diff --git a/a.py b/a.py\n@@ -1,1 +10,5 @@\n+x = 1".toList)
    = [⟨some ("a.py".toList), "x = 1".toList, (10 : Int), []⟩] := by
  have h := c1_position_from_hunk_header ("10".toList) ("x = 1".toList) []
    (by decide) (by decide) (by decide) (by decide) (by simp) (by decide)
  exact h

/-- Counterexample for claim C1 as stated: the diff has 3 lines in
total, yet the emitted position is 10, so the position cannot be a
count of diff lines consumed since the file header, and the hunk
header did not advance a counter by one but installed its new-file
start field. -/
theorem c1_counterexample :
    create_structured_diff
      ("diff --git a/a.py b/a.py\n@@ -1,1 +10,5 @@\n+x = 1".toList)
      = [⟨some ("a.py".toList), "x = 1".toList, (10 : Int), []⟩] ∧
    (splitLines
      ("diff --git a/a.py b/a.py\n@@ -1,1 +10,5 @@\n+x = 1".toList)).length = 3 ∧
    ¬ ((10 : Int) ≤ 3) := by
  refine ⟨?_, by decide, by decide⟩
  have h := csd_single_hunk ("10".toList) ("x = 1".toList) [] (by decide) (by decide)
    (by decide) (by decide) (by simp)
  unfold create_structured_diff
  rw [show splitLines ("diff --git a/a.py b/a.py\n@@ -1,1 +10,5 @@\n+x = 1".toList)
      = ("diff --git a/a.py b/a.py".toList
          :: ("@@ -1,1 +".toList ++ "10".toList ++ ",5 @@".toList)
          :: (("x = 1".toList) :: []).map (List.cons '+')) from by decide]
  exact h

/-- Counterexample for claim C2 as stated: the diff really contains the
added line and a recorded hunk, the fetched file contains the line, the
existing-comment snapshot is empty so no existing entry matches the
candidate on anything, let alone on all three of path, content and
position, yet review.py's post_comment produces no comment for it: the
hunk recorded for the file carries an empty line list, so position
mapping fails and the candidate is dropped before any dedup test. -/
theorem c2_counterexample :
    Review.build_file_hunks
        ("diff --git a/a.py b/a.py\n@@ -1,1 +5,2 @@\n+x = 1".toList)
      = [("a.py".toList, [⟨5, []⟩])] ∧
    Review.find_line_number (fun _ => some ["x = 1".toList]) ("a.py".toList)
        ("x = 1".toList) = some 1 ∧
    Review.post_comment (fun _ => some ["x = 1".toList])
      [⟨"a.py".toList, "x = 1".toList, "bad".toList⟩] []
      ("diff --git a/a.py b/a.py\n@@ -1,1 +5,2 @@\n+x = 1".toList) = [] :=
  ⟨rfl, rfl, rfl⟩

/-- Witness for claim C3 as corrected: with chunk size one and two
items, a generator failing on the first chunk aborts the whole run. -/
theorem c3_abort_on_first_error_witness :
    process_chunks
      (fun ch => if ch = [(⟨none, "x".toList, 1, []⟩ : DiffItem)]
        then Except.error ("bad".toList) else Except.ok ⟨[]⟩)
      1 [⟨none, "x".toList, 1, []⟩, ⟨none, "y".toList, 2, []⟩]
    = Except.error ("bad".toList) := by
  refine c3_abort_on_first_error _ 1 _ [] [⟨none, "x".toList, 1, []⟩]
    [[⟨none, "y".toList, 2, []⟩]] ("bad".toList) (by decide) (by simp) ?_
  rfl

/-- Counterexample for claim C3 as stated: the second chunk is
perfectly processable, yet the run result is the first chunk error and
no response for the second chunk is produced. -/
theorem c3_counterexample :
    process_chunks
      (fun ch => if ch = [(⟨none, "x".toList, 1, []⟩ : DiffItem)]
        then Except.error ("bad".toList) else Except.ok ⟨[]⟩)
      1 [⟨none, "x".toList, 1, []⟩, ⟨none, "y".toList, 2, []⟩]
      = Except.error ("bad".toList) ∧
    (fun ch => if ch = [(⟨none, "x".toList, 1, []⟩ : DiffItem)]
        then Except.error ("bad".toList) else Except.ok (⟨[]⟩ : ReviewResponse))
      [⟨none, "y".toList, 2, []⟩] = Except.ok ⟨[]⟩ :=
  ⟨rfl, rfl⟩

/-- Witness for claim C4 as corrected: one comment yields one batched
review call and one marker comment with no timestamp. -/
theorem c4_marker_only_with_comments_witness :
    post_comments [⟨"f".toList, 1, "b".toList⟩] ("abc".toList)
    = [.createReview [⟨"f".toList, 1, "b".toList⟩],
       .issueComment ("@corivai-review Last Processed SHA: ".toList ++ "abc".toList)] :=
  (c4_marker_only_with_comments [⟨"f".toList, 1, "b".toList⟩] ("abc".toList)).1
    (by decide)

/-- Counterexample for claim C4 as stated: a zero-comment run posts no
marker at all, and the marker a non-empty run posts is a single line
without a newline, so it cannot have the claimed two-line form ending
in a completion timestamp. -/
theorem c4_counterexample :
    post_comments [] ("abc".toList) = [] ∧
    post_comments [⟨"f".toList, 1, "b".toList⟩] ("abc".toList)
      = [.createReview [⟨"f".toList, 1, "b".toList⟩],
         .issueComment ("@corivai-review Last Processed SHA: abc".toList)] ∧
    '\n' ∉ ("@corivai-review Last Processed SHA: abc".toList) :=
  ⟨rfl, rfl, by decide⟩

/-- Witness for claim C5: chunking three items with size two gives the
slices of lengths two and one, concatenating back to the input. -/
theorem c5_chunk_partition_witness :
    (chunk_diff_data 2 [⟨none, "a".toList, 1, []⟩, ⟨none, "b".toList, 2, []⟩,
        ⟨none, "c".toList, 3, []⟩]).flatten
      = [⟨none, "a".toList, 1, []⟩, ⟨none, "b".toList, 2, []⟩,
         ⟨none, "c".toList, 3, []⟩] ∧
    (∀ c ∈ chunk_diff_data 2 [⟨none, "a".toList, 1, []⟩, ⟨none, "b".toList, 2, []⟩,
        ⟨none, "c".toList, 3, []⟩], c ≠ [] ∧ c.length ≤ 2) ∧
    (∀ c ∈ (chunk_diff_data 2 [⟨none, "a".toList, 1, []⟩, ⟨none, "b".toList, 2, []⟩,
        ⟨none, "c".toList, 3, []⟩]).dropLast, c.length = 2) ∧
    ([(⟨none, "a".toList, 1, []⟩ : DiffItem), ⟨none, "b".toList, 2, []⟩,
        ⟨none, "c".toList, 3, []⟩] = []
      → chunk_diff_data 2 [⟨none, "a".toList, 1, []⟩, ⟨none, "b".toList, 2, []⟩,
          ⟨none, "c".toList, 3, []⟩] = []) :=
  c5_chunk_partition 2 (by decide)
    [⟨none, "a".toList, 1, []⟩, ⟨none, "b".toList, 2, []⟩, ⟨none, "c".toList, 3, []⟩]

/-- Witness for claim C6: a plus line, a context line and another plus
line give exactly two blocks at start offsets 0 and 2. -/
theorem c6_segmentation_witness :
    (extract_code_block ["+a".toList, " c".toList, "+b".toList] 0 none).2.2
      = [⟨none, "a".toList, 0⟩, ⟨none, "b".toList, 2⟩] ∧
    (∀ blk ∈ (extract_code_block ["+a".toList, " c".toList, "+b".toList] 0 none).2.2,
      strip blk.changes ≠ []) := by
  constructor
  · have h := c6_segmentation.1 ("a".toList) [] ("b".toList) [] (" c".toList) none
      (by decide) (by simp) (by decide) (by simp) (by decide) (by decide) (by decide)
    exact h
  · exact c6_segmentation.2 ["+a".toList, " c".toList, "+b".toList] 0 none

/-- Witness for claim C7: a finding with no matching item yields no
comment, and a finding matching one item yields exactly one comment
with the Finding-prefixed body. -/
theorem c7_reconciliation_witness :
    apply_review_comments ⟨[⟨"bad".toList, "f".toList, "x".toList⟩]⟩
      [⟨some ("g".toList), "y".toList, 1, []⟩] = [] ∧
    apply_review_comments ⟨[⟨"bad".toList, "f".toList, "x".toList⟩]⟩
      [⟨some ("f".toList), "x".toList, 7, []⟩]
      = [⟨"f".toList, 7, "**Finding**: bad".toList⟩] := by
  constructor
  · exact (c7_reconciliation _).1 _ (by decide)
  · have h := (c7_reconciliation ⟨"bad".toList, "f".toList, "x".toList⟩).2 []
      (⟨some ("f".toList), "x".toList, 7, []⟩) [] (by simp) (by decide)
    exact h

/-- Witness for claim C8 as corrected: a matched item at position minus
two still produces a comment carrying position minus two. -/
theorem c8_no_position_check_witness :
    apply_review_comments ⟨[⟨"bad".toList, "f".toList, "x".toList⟩]⟩
      [⟨some ("f".toList), "x".toList, -2, []⟩]
      = [⟨"f".toList, -2, "**Finding**: bad".toList⟩] := by
  have h := c8_no_position_check ⟨"bad".toList, "f".toList, "x".toList⟩ []
    (⟨some ("f".toList), "x".toList, -2, []⟩) [] (by simp) (by decide) (by decide)
  exact h

/-- Counterexample for claim C8 as stated: a matched item with position
zero is not dropped; the comment is emitted with position zero. -/
theorem c8_counterexample :
    apply_review_comments ⟨[⟨"bad".toList, "f".toList, "x".toList⟩]⟩
      [⟨some ("f".toList), "x".toList, 0, []⟩]
      = [⟨"f".toList, 0, "**Finding**: bad".toList⟩] := rfl

/-- Witness for claim C10: on a one-line diff body starting with plus,
extraction moves the index from 0 to a value in the interval from one
to the line count. -/
theorem c10_extract_progress_witness :
    0 < (extract_code_block ["+a".toList] 0 none).2.1 ∧
    (extract_code_block ["+a".toList] 0 none).2.1 ≤ 1 := by
  have h := c10_extract_progress ["+a".toList] 0 none (by decide) (Or.inl (by decide))
  exact h


end Corivai
